import Mathlib

/-!
A verification development for the ohmydb embedded JSON document store
(`src/json_db.rs`, `src/utils.rs`, `src/types.rs`).

The embedding models JSON values (`serde_json::Value`) as the inductive
`Val`; a table (`HashSet<Value>`) as a `List Val` whose elements are kept
structurally distinct by the operations themselves; and the store
(`HashMap<String, HashSet<Value>>`) as an association list.  Numbers are
modelled as `Nat`, since the only numeric accessor the code uses is
`as_u64`.  Rust `panic!`s arising from `.unwrap()` calls are modelled as
the aborting error `DbErr.panicked`; `Result::Err` returns are the other
`DbErr` constructors.  File writes cannot fail in the model (`IoFailure`
is out of scope), and the persisted file content is modelled as a compact
JSON rendering of the store (pretty-printing whitespace is abstracted).
-/

/-- JSON-like values, mirroring `serde_json::Value`.  Numbers are
restricted to the `u64` range (`Nat`) because the comparator engine only
consults `as_u64`. -/
inductive Val where
  | null : Val
  | bool (b : Bool) : Val
  | num (n : Nat) : Val
  | str (s : String) : Val
  | arr (xs : List Val) : Val
  | obj (fields : List (String × Val)) : Val

mutual

/-- Decidable structural equality on `Val` (Rust `PartialEq` on
`serde_json::Value`). -/
def Val.decEq : (a b : Val) → Decidable (a = b)
  | .null, .null => isTrue rfl
  | .null, .bool _ => isFalse (fun h => Val.noConfusion h)
  | .null, .num _ => isFalse (fun h => Val.noConfusion h)
  | .null, .str _ => isFalse (fun h => Val.noConfusion h)
  | .null, .arr _ => isFalse (fun h => Val.noConfusion h)
  | .null, .obj _ => isFalse (fun h => Val.noConfusion h)
  | .bool _, .null => isFalse (fun h => Val.noConfusion h)
  | .bool a, .bool b =>
      if h : a = b then isTrue (by rw [h]) else isFalse (fun k => h (by injection k))
  | .bool _, .num _ => isFalse (fun h => Val.noConfusion h)
  | .bool _, .str _ => isFalse (fun h => Val.noConfusion h)
  | .bool _, .arr _ => isFalse (fun h => Val.noConfusion h)
  | .bool _, .obj _ => isFalse (fun h => Val.noConfusion h)
  | .num _, .null => isFalse (fun h => Val.noConfusion h)
  | .num _, .bool _ => isFalse (fun h => Val.noConfusion h)
  | .num a, .num b =>
      if h : a = b then isTrue (by rw [h]) else isFalse (fun k => h (by injection k))
  | .num _, .str _ => isFalse (fun h => Val.noConfusion h)
  | .num _, .arr _ => isFalse (fun h => Val.noConfusion h)
  | .num _, .obj _ => isFalse (fun h => Val.noConfusion h)
  | .str _, .null => isFalse (fun h => Val.noConfusion h)
  | .str _, .bool _ => isFalse (fun h => Val.noConfusion h)
  | .str _, .num _ => isFalse (fun h => Val.noConfusion h)
  | .str a, .str b =>
      if h : a = b then isTrue (by rw [h]) else isFalse (fun k => h (by injection k))
  | .str _, .arr _ => isFalse (fun h => Val.noConfusion h)
  | .str _, .obj _ => isFalse (fun h => Val.noConfusion h)
  | .arr _, .null => isFalse (fun h => Val.noConfusion h)
  | .arr _, .bool _ => isFalse (fun h => Val.noConfusion h)
  | .arr _, .num _ => isFalse (fun h => Val.noConfusion h)
  | .arr _, .str _ => isFalse (fun h => Val.noConfusion h)
  | .arr a, .arr b =>
      match Val.decEqList a b with
      | isTrue h => isTrue (by rw [h])
      | isFalse h => isFalse (fun k => h (by injection k))
  | .arr _, .obj _ => isFalse (fun h => Val.noConfusion h)
  | .obj _, .null => isFalse (fun h => Val.noConfusion h)
  | .obj _, .bool _ => isFalse (fun h => Val.noConfusion h)
  | .obj _, .num _ => isFalse (fun h => Val.noConfusion h)
  | .obj _, .str _ => isFalse (fun h => Val.noConfusion h)
  | .obj _, .arr _ => isFalse (fun h => Val.noConfusion h)
  | .obj a, .obj b =>
      match Val.decEqFields a b with
      | isTrue h => isTrue (by rw [h])
      | isFalse h => isFalse (fun k => h (by injection k))

/-- Decidable equality on lists of `Val`. -/
def Val.decEqList : (a b : List Val) → Decidable (a = b)
  | [], [] => isTrue rfl
  | [], _ :: _ => isFalse (fun h => List.noConfusion h)
  | _ :: _, [] => isFalse (fun h => List.noConfusion h)
  | x :: xs, y :: ys =>
      match Val.decEq x y with
      | isFalse h1 => isFalse (fun k => h1 (by injection k))
      | isTrue h1 =>
        match Val.decEqList xs ys with
        | isTrue h2 => isTrue (by rw [h1, h2])
        | isFalse h2 => isFalse (fun k => h2 (by injection k))

/-- Decidable equality on object field lists. -/
def Val.decEqFields : (a b : List (String × Val)) → Decidable (a = b)
  | [], [] => isTrue rfl
  | [], _ :: _ => isFalse (fun h => List.noConfusion h)
  | _ :: _, [] => isFalse (fun h => List.noConfusion h)
  | (k, v) :: xs, (l, w) :: ys =>
      if hk : k = l then
        match Val.decEq v w with
        | isFalse h1 =>
            isFalse (fun hEq => h1 (by
              have := congrArg List.head? hEq
              simp at this
              exact this.2))
        | isTrue h1 =>
          match Val.decEqFields xs ys with
          | isTrue h2 => isTrue (by rw [hk, h1, h2])
          | isFalse h2 => isFalse (fun hEq => h2 (by injection hEq))
      else
        isFalse (fun hEq => hk (by
          have := congrArg List.head? hEq
          simp at this
          exact this.1))

end

instance : DecidableEq Val := Val.decEq

/-- `Value::as_str`: `Some` exactly on strings. -/
def Val.asStr : Val → Option String
  | .str s => some s
  | _ => none

/-- `Value::as_u64`: `Some` exactly on (u64) numbers. -/
def Val.asU64 : Val → Option Nat
  | .num n => some n
  | _ => none

/-- Error outcomes of the database core.  `tableNotFound`,
`recordAlreadyExists` and `recordNotFound` are `io::Error` values returned
through `Result`; `pathNotFound` (`ErrorKind::NotFound` on a key) and
`notAnObject` (`ErrorKind::InvalidInput`) are the two failures of
`get_nested_value`; `panicked` models a Rust `panic!` raised by an
`.unwrap()` call, which aborts the whole `run` without returning. -/
inductive DbErr where
  | tableNotFound : DbErr
  | recordAlreadyExists : DbErr
  | recordNotFound : DbErr
  | pathNotFound : DbErr
  | notAnObject : DbErr
  | panicked : DbErr
deriving DecidableEq, Repr

/-- `.unwrap()` on a `Result`: success passes through, any failure is a
panic that aborts the computation. -/
def unwrapE {α : Type} : Except DbErr α → Except DbErr α
  | .ok a => .ok a
  | .error _ => .error .panicked

/-- `.unwrap()` on an `Option` (Rust `as_str().unwrap()` etc.). -/
def unwrapOpt {α : Type} : Option α → Except DbErr α
  | some a => .ok a
  | none => .error .panicked

/-- Field lookup in an object (`serde_value::Value::Map` keyed by field
name; serde maps have unique keys, mirrored here by first-match lookup). -/
def lookupField (fields : List (String × Val)) (k : String) : Option Val :=
  (fields.find? (fun p => p.1 == k)).map (fun p => p.2)

/-- The descent loop of `get_nested_value` (src/utils.rs lines 105-120):
one step per path segment; a present key descends, a missing key fails
with `NotFound` ("Key not found"), and a non-object current value fails
with `InvalidInput` ("Expected a nested structure"). -/
def resolve_segments : List String → Val → Except DbErr Val
  | [], v => .ok v
  | k :: ks, .obj fields =>
      match lookupField fields k with
      | some v => resolve_segments ks v
      | none => .error .pathNotFound
  | _ :: _, .null => .error .notAnObject
  | _ :: _, .bool _ => .error .notAnObject
  | _ :: _, .num _ => .error .notAnObject
  | _ :: _, .str _ => .error .notAnObject
  | _ :: _, .arr _ => .error .notAnObject

/-- Splitting a string on the dot character, as Rust
`key_chain.split('.')` does: always at least one segment, the empty
string splitting to `[""]`.  (Defined by structural recursion over the
character list so that concrete instances compute inside the kernel.) -/
def splitDotAux : List Char → List Char → List String
  | [], acc => [String.mk acc.reverse]
  | c :: cs, acc =>
      if c = '.' then String.mk acc.reverse :: splitDotAux cs []
      else splitDotAux cs (c :: acc)

/-- `key_chain.split('.')` from src/utils.rs line 102. -/
def splitDot (s : String) : List String := splitDotAux s.data []

/-- `get_nested_value` (src/utils.rs lines 97-126): split the key chain on
`.` and descend segment by segment.  The final `R::deserialize` step is
the identity here because every call site instantiates `R = Value`. -/
def get_nested_value (data : Val) (key_chain : String) : Except DbErr Val :=
  resolve_segments (splitDot key_chain) data

/-- The comparator of a `Compare` runner (src/types.rs lines 10-17). -/
inductive Comparator where
  | Equals (v : String) : Comparator
  | NotEquals (v : String) : Comparator
  | LessThan (v : Nat) : Comparator
  | GreaterThan (v : Nat) : Comparator
  | In (vs : List String) : Comparator
  | Between (lo hi : Nat) : Comparator
deriving DecidableEq, Repr

/-- `filter_with_conmpare` (src/json_db.rs lines 559-570), the comparator
engine evaluated on the value resolved at the active path. -/
def filter_with_conmpare (value : Val) (comparator : Comparator) : Bool :=
  match comparator with
  | .Equals v => value.asStr == some v
  | .NotEquals v => value.asStr != some v
  | .LessThan v => (value.asU64.map (fun x => decide (x < v))).getD false
  | .GreaterThan v => (value.asU64.map (fun x => decide (x > v))).getD false
  | .In vs => (value.asStr.map (fun x => vs.contains x)).getD false
  | .Between lo hi => (value.asU64.map (fun x => decide (lo ≤ x ∧ x ≤ hi))).getD false

/-- `MethodName` (src/types.rs lines 20-25): the pending action. -/
inductive MethodName where
  | Create (table : String) (item : Val) (or_ : Bool) : MethodName
  | Read (table : String) : MethodName
  | Update (table : String) (item : Val) : MethodName
  | Delete (table : String) : MethodName
deriving DecidableEq

/-- The table a method targets; the seeding step of `run` reads this
table regardless of the action kind (src/json_db.rs lines 428-444). -/
def MethodName.tableName : MethodName → String
  | .Create t _ _ => t
  | .Read t => t
  | .Update t _ => t
  | .Delete t => t

/-- `Runner` (src/types.rs lines 93-99): one queued operation. -/
inductive Runner where
  | Done : Runner
  | Method (m : MethodName) : Runner
  | Compare (c : Comparator) : Runner
  | Where (f : String) : Runner
deriving DecidableEq

/-- The in-memory store: `HashMap<String, HashSet<Value>>`, modelled as an
association list from table name to document list. -/
abbrev Store := List (String × List Val)

/-- Map lookup (`HashMap::get`). -/
def lookupTable (s : Store) (t : String) : Option (List Val) :=
  (s.find? (fun p => p.1 == t)).map (fun p => p.2)

/-- Replacing the contents of an existing table (mutation through
`get_mut`); tables with other names are untouched. -/
def setTable (s : Store) (t : String) (docs : List Val) : Store :=
  s.map (fun p => if p.1 == t then (t, docs) else p)

/-- `HashMap::insert(name, HashSet::new())` when the key is absent:
creates an empty table, a no-op if the table already exists. -/
def add_empty_table (s : Store) (t : String) : Store :=
  if (lookupTable s t).isSome then s else s ++ [(t, [])]

/-- `HashSet::insert`: a no-op when a structurally equal element is
already present, otherwise adds the element. -/
def hsInsert (docs : List Val) (v : Val) : List Val :=
  if v ∈ docs then docs else docs ++ [v]

/-- `get_table_mut` / `get_table_vec` table resolution (src/json_db.rs
lines 125-163): fails with `TableNotFound` when the table is absent. -/
def get_table_vec (s : Store) (t : String) : Except DbErr (List Val) :=
  match lookupTable s t with
  | some docs => .ok docs
  | none => .error .tableNotFound

mutual

/-- A compact JSON rendering of a value, modelling
`serde_json::to_string_pretty` with whitespace abstracted away. -/
def serialize_val : Val → String
  | .null => "null"
  | .bool b => cond b "true" "false"
  | .num n => toString n
  | .str s => "\"" ++ s ++ "\""
  | .arr xs => "[" ++ serialize_vals xs ++ "]"
  | .obj fs => "\x7b" ++ serialize_fields fs ++ "\x7d"

/-- Comma-separated rendering of array elements. -/
def serialize_vals : List Val → String
  | [] => ""
  | [x] => serialize_val x
  | x :: y :: xs => serialize_val x ++ "," ++ serialize_vals (y :: xs)

/-- Comma-separated rendering of object fields. -/
def serialize_fields : List (String × Val) → String
  | [] => ""
  | [(k, v)] => "\"" ++ k ++ "\":" ++ serialize_val v
  | (k, v) :: y :: xs =>
      "\"" ++ k ++ "\":" ++ serialize_val v ++ "," ++ serialize_fields (y :: xs)

end

/-- Serialization of the whole store: the top-level JSON object mapping
each table name to the array of its documents. -/
def serialize_store (s : Store) : String :=
  serialize_val (.obj (s.map (fun p => (p.1, .arr p.2))))

/-- One database handle: the in-memory store (`self.value`) and the
current content of the backing file.  The `tables : HashSet<String>`
field of the Rust struct is omitted: it is written but never read by any
operation. -/
structure DB where
  value : Store
  file : String
deriving DecidableEq

/-- `save` (src/json_db.rs lines 194-208): serialize the entire store and
overwrite the file.  IO failure is out of scope of the model. -/
def save (db : DB) : DB :=
  { db with file := serialize_store db.value }

/-- `add_table` (src/json_db.rs lines 174-187): create an empty table if
absent (no-op otherwise), then save. -/
def add_table (db : DB) (table_name : String) : DB :=
  save { db with value := add_empty_table db.value table_name }

/-- The id-duplicate search of `insert_into_table` (src/json_db.rs lines
627-631): `table.iter().find(...)` whose closure unwraps both the current
document's `id` (as a string) and the new item's `id` as a string. -/
def find_same_id (new_item_id : Val) : List Val → Except DbErr (Option Val)
  | [] => .ok none
  | t :: ts => do
      let current_id ← unwrapE (get_nested_value t "id")
      let cs ← unwrapOpt current_id.asStr
      let ns ← unwrapOpt new_item_id.asStr
      if cs = ns then .ok (some t) else find_same_id new_item_id ts

/-- `insert_into_table` (src/json_db.rs lines 588-652).  The new item's
`id` is unwrapped first (line 594); the target table is resolved
(created first when `or` is set); a structural duplicate is rejected
(the error message formats the id as a string, hence the unwrap); then a
document sharing the id is rejected; otherwise the item is inserted. -/
def insert_into_table (s : Store) (table_name : String) (new_item : Val) (or_ : Bool) :
    Except DbErr Store := do
  let new_item_id ← unwrapE (get_nested_value new_item "id")
  let s1 := if or_ then add_empty_table s table_name else s
  let docs ← get_table_vec s1 table_name
  if new_item ∈ docs then do
    let _ ← unwrapOpt new_item_id.asStr
    .error .recordAlreadyExists
  else do
    let found ← find_same_id new_item_id docs
    match found with
    | some _ => .error .recordAlreadyExists
    | none => .ok (setTable s1 table_name (hsInsert docs new_item))

/-- The search of the Update branch (src/json_db.rs lines 470-484):
`result.iter().find(...)` over the filtered working result, comparing
each candidate's string `id` with the new item's string id. -/
def find_update_target (new_id_str : String) : List Val → Except DbErr (Option Val)
  | [] => .ok none
  | t :: ts => do
      let current_item_id ← unwrapE (get_nested_value t "id")
      let cs ← unwrapOpt current_item_id.asStr
      if cs = new_id_str then .ok (some t) else find_update_target new_id_str ts

/-- The `retain` of the Update branch (src/json_db.rs lines 492-496):
keep the documents whose string `id` differs from the matched id. -/
def retain_ne_str (sv : String) : List Val → Except DbErr (List Val)
  | [] => .ok []
  | t :: ts => do
      let current_id ← unwrapE (get_nested_value t "id")
      let cs ← unwrapOpt current_id.asStr
      let rest ← retain_ne_str sv ts
      .ok (if cs ≠ sv then t :: rest else rest)

/-- The Update branch of `Done` (src/json_db.rs lines 467-518) acting on
the store: unwrap the new item's id (the `ok_or` error message eagerly
formats it as a string), search the filtered working result, fail with
`RecordNotFound` if absent; otherwise remove every table document whose
id matches the matched document's id and insert the new item. -/
def update_table (s : Store) (table : String) (new_item : Val) (result : List Val) :
    Except DbErr Store := do
  let new_item_id ← unwrapE (get_nested_value new_item "id")
  let new_id_str ← unwrapOpt new_item_id.asStr
  let target ← find_update_target new_id_str result
  match target with
  | none => .error .recordNotFound
  | some search_value => do
      let docs ← get_table_vec s table
      let search_value_id ← unwrapE (get_nested_value search_value "id")
      let search_id_str ← unwrapOpt search_value_id.asStr
      let kept ← retain_ne_str search_id_str docs
      .ok (setTable s table (hsInsert kept new_item))

/-- One `retain` of the Delete branch (src/json_db.rs lines 523-527):
for a fixed working-result document `r`, keep the table documents whose
string `id` differs from `r`'s string `id`; both ids are unwrapped in
the closure, per table document. -/
def retain_ne_ids (r : Val) : List Val → Except DbErr (List Val)
  | [] => .ok []
  | t :: ts => do
      let t_id ← unwrapE (get_nested_value t "id")
      let r_id ← unwrapE (get_nested_value r "id")
      let ts' ← unwrapOpt t_id.asStr
      let rs' ← unwrapOpt r_id.asStr
      let rest ← retain_ne_ids r ts
      .ok (if ts' ≠ rs' then t :: rest else rest)

/-- The `for r in result` loop of the Delete branch (src/json_db.rs
lines 522-528): retain once per working-result document. -/
def delete_loop : List Val → List Val → Except DbErr (List Val)
  | [], docs => .ok docs
  | r :: rs, docs => do
      let docs' ← retain_ne_ids r docs
      delete_loop rs docs'

/-- The Delete branch of `Done` (src/json_db.rs lines 519-531) acting on
the store: resolve the table (`TableNotFound` if absent), then remove
every document whose id matches the id of a filtered working-result
document. -/
def delete_from_table (s : Store) (table : String) (result : List Val) :
    Except DbErr Store := do
  let docs ← get_table_vec s table
  let docs' ← delete_loop result docs
  .ok (setTable s table docs')

/-- The `Done` arm of `run` (src/json_db.rs lines 458-538): apply the
pending action to the store, then save.  Every error returns before the
save, leaving both the store and the file as they were.  `Read` and an
absent method mutate nothing and still save. -/
def applyDone (db : DB) (result : List Val) (method : Option MethodName) :
    DB × Except DbErr (List Val) :=
  match method with
  | some (.Read _) => (save db, .ok result)
  | some (.Create table new_item or_) =>
      match insert_into_table db.value table new_item or_ with
      | .ok value' => (save { db with value := value' }, .ok result)
      | .error e => (db, .error e)
  | some (.Update table new_item) =>
      match update_table db.value table new_item result with
      | .ok value' => (save { db with value := value' }, .ok [new_item])
      | .error e => (db, .error e)
  | some (.Delete table) =>
      match delete_from_table db.value table result with
      | .ok value' => (save { db with value := value' }, .ok result)
      | .error e => (db, .error e)
  | none => (save db, .ok result)

/-- The filter of a `Compare` runner (src/json_db.rs lines 449-457):
keep the documents matching the comparator at the active path; the
closure unwraps `get_nested_value`, so a resolution failure on any
document panics and aborts the whole run. -/
def filter_results (key_chain : String) (c : Comparator) :
    List Val → Except DbErr (List Val)
  | [] => .ok []
  | t :: ts => do
      let value ← unwrapE (get_nested_value t key_chain)
      let rest ← filter_results key_chain c ts
      .ok (if filter_with_conmpare value c then t :: rest else rest)

/-- The drain loop of `run` (src/json_db.rs lines 419-543), carrying the
working result, the active path (`key_chain`) and the pending action.
A `Method` runner seeds the working result from its table
(`unwrap_or_default`: an absent table seeds the empty list); `Where`
sets the active path; `Compare` filters (a path-resolution failure
aborts); `Done` applies the pending action and saves.  The empty-queue
case mirrors the `while let` loop ending without a `Done`, which is
unreachable from `run` since `run` appends `Done`. -/
def runAux (db : DB) : List Runner → List Val → String → Option MethodName →
    DB × Except DbErr (List Val)
  | [], result, _, _ => (db, .ok result)
  | .Done :: _, result, _, method => applyDone db result method
  | .Method m :: rest, _, key_chain, _ =>
      runAux db rest ((get_table_vec db.value m.tableName).toOption.getD [])
        key_chain (some m)
  | .Where f :: rest, result, _, method => runAux db rest result f method
  | .Compare c :: rest, result, key_chain, method =>
      match filter_results key_chain c result with
      | .ok result' => runAux db rest result' key_chain method
      | .error e => (db, .error e)

/-- `run` (src/json_db.rs lines 419-543): push `Done` onto the queue and
drain it, starting from an empty working result, an empty active path
and no pending action. -/
def run (db : DB) (runners : List Runner) : DB × Except DbErr (List Val) :=
  runAux db (runners ++ [.Done]) [] "" none

instance {ε α : Type} [DecidableEq ε] [DecidableEq α] : DecidableEq (Except ε α) := fun a b =>
  match a, b with
  | .ok x, .ok y =>
      if h : x = y then isTrue (by rw [h]) else isFalse (fun k => h (by injection k))
  | .error x, .error y =>
      if h : x = y then isTrue (by rw [h]) else isFalse (fun k => h (by injection k))
  | .ok _, .error _ => isFalse (fun h => Except.noConfusion h)
  | .error _, .ok _ => isFalse (fun h => Except.noConfusion h)

/-- The string under a document's top-level `id` field, when the field
resolves and holds a string. -/
def idStrOf (d : Val) : Option String :=
  match get_nested_value d "id" with
  | .ok v => v.asStr
  | .error _ => none

/-- A document carries a top-level `id` field holding a string — the
identity precondition of the mutation paths. -/
def HasStrId (d : Val) : Prop :=
  ∃ s, get_nested_value d "id" = .ok (.str s)

theorem Val.asStr_eq_some {v : Val} {s : String} : v.asStr = some s ↔ v = .str s := by
  cases v <;> simp [Val.asStr]

theorem idStrOf_eq_some {d : Val} {s : String} :
    idStrOf d = some s ↔ get_nested_value d "id" = .ok (.str s) := by
  unfold idStrOf
  cases h : get_nested_value d "id" with
  | ok v => simp [Val.asStr_eq_some]
  | error e => simp

theorem hasStrId_iff {d : Val} : HasStrId d ↔ ∃ s, idStrOf d = some s := by
  unfold HasStrId
  constructor
  · rintro ⟨s, hs⟩; exact ⟨s, idStrOf_eq_some.mpr hs⟩
  · rintro ⟨s, hs⟩; exact ⟨s, idStrOf_eq_some.mp hs⟩

theorem idStrOf_none_cases {d : Val} (h : idStrOf d = none) :
    (∃ e, get_nested_value d "id" = .error e) ∨
      ∃ v, get_nested_value d "id" = .ok v ∧ v.asStr = none := by
  unfold idStrOf at h
  cases hg : get_nested_value d "id" with
  | ok v => rw [hg] at h; exact .inr ⟨v, rfl, h⟩
  | error e => exact .inl ⟨e, rfl⟩

theorem find_update_target_none {s : String} {result : List Val}
    (h : ∀ d ∈ result, ∃ u, idStrOf d = some u ∧ u ≠ s) :
    find_update_target s result = .ok none := by
  induction result with
  | nil => rfl
  | cons t ts ih =>
      obtain ⟨u, hu, hne⟩ := h t (by simp)
      rw [idStrOf_eq_some] at hu
      simp only [find_update_target, hu, unwrapE, Val.asStr, unwrapOpt, bind, Except.bind]
      simp only [hne, if_false]
      exact ih (fun d hd => h d (by simp [hd]))

theorem find_update_target_some {s : String} {result : List Val}
    (hall : ∀ d ∈ result, HasStrId d)
    (h : ∃ d ∈ result, idStrOf d = some s) :
    ∃ d₀, find_update_target s result = .ok (some d₀) ∧ d₀ ∈ result ∧
      idStrOf d₀ = some s := by
  induction result with
  | nil => simp at h
  | cons t ts ih =>
      obtain ⟨u, hu⟩ := hall t (by simp)
      have hu' : idStrOf t = some u := idStrOf_eq_some.mpr hu
      simp only [find_update_target, hu, unwrapE, Val.asStr, unwrapOpt, bind, Except.bind]
      by_cases he : u = s
      · subst he
        exact ⟨t, by simp, by simp, hu'⟩
      · simp only [he, if_false]
        have h' : ∃ d ∈ ts, idStrOf d = some s := by
          obtain ⟨d, hd, hds⟩ := h
          rcases List.mem_cons.mp hd with rfl | hmem
          · exact absurd (hu' ▸ hds) (by simp [he])
          · exact ⟨d, hmem, hds⟩
        obtain ⟨d₀, h1, h2, h3⟩ := ih (fun d hd => hall d (by simp [hd])) h'
        exact ⟨d₀, h1, by simp [h2], h3⟩

theorem retain_ne_str_ok {sv : String} {docs : List Val}
    (h : ∀ d ∈ docs, HasStrId d) :
    retain_ne_str sv docs = .ok (docs.filter (fun d => idStrOf d != some sv)) := by
  induction docs with
  | nil => rfl
  | cons t ts ih =>
      obtain ⟨u, hu⟩ := h t (by simp)
      have hu' : idStrOf t = some u := idStrOf_eq_some.mpr hu
      simp only [retain_ne_str, hu, unwrapE, Val.asStr, unwrapOpt, bind, Except.bind,
        ih (fun d hd => h d (by simp [hd])), List.filter_cons, hu']
      by_cases he : u = sv <;> simp [he]

theorem retain_ne_str_ok_inv {sv : String} {docs kept : List Val}
    (h : retain_ne_str sv docs = .ok kept) :
    (∀ d ∈ docs, HasStrId d) ∧
      kept = docs.filter (fun d => idStrOf d != some sv) := by
  induction docs generalizing kept with
  | nil =>
      simp only [retain_ne_str] at h
      injection h with h
      subst h
      exact ⟨by simp, rfl⟩
  | cons t ts ih =>
      simp only [retain_ne_str, bind, Except.bind] at h
      cases hg : get_nested_value t "id" with
      | error e => rw [hg] at h; exact absurd h (by simp [unwrapE])
      | ok v =>
          rw [hg] at h
          simp only [unwrapE] at h
          cases hs : v.asStr with
          | none => rw [hs] at h; exact absurd h (by simp [unwrapOpt])
          | some u =>
              rw [hs] at h
              simp only [unwrapOpt] at h
              cases hr : retain_ne_str sv ts with
              | error e => rw [hr] at h; exact absurd h (by simp)
              | ok rest =>
                  rw [hr] at h
                  obtain ⟨hall, hrest⟩ := ih hr
                  have hv : v = .str u := Val.asStr_eq_some.mp hs
                  have hid : idStrOf t = some u := idStrOf_eq_some.mpr (hv ▸ hg)
                  refine ⟨?_, ?_⟩
                  · intro d hd
                    rcases List.mem_cons.mp hd with rfl | hmem
                    · exact ⟨u, hv ▸ hg⟩
                    · exact hall d hmem
                  · injection h with h
                    subst hrest
                    rw [← h]
                    simp only [List.filter_cons, hid]
                    by_cases he : u = sv <;> simp [he]

theorem retain_ne_ids_ok {r : Val} {docs : List Val}
    (hdocs : ∀ d ∈ docs, HasStrId d) (hr : docs = [] ∨ HasStrId r) :
    retain_ne_ids r docs = .ok (docs.filter (fun d => idStrOf d != idStrOf r)) := by
  induction docs with
  | nil => rfl
  | cons t ts ih =>
      obtain ⟨u, hu⟩ := hdocs t (by simp)
      obtain ⟨w, hw⟩ := hr.resolve_left (by simp)
      have hu' : idStrOf t = some u := idStrOf_eq_some.mpr hu
      have hw' : idStrOf r = some w := idStrOf_eq_some.mpr hw
      have ih' := ih (fun d hd => hdocs d (by simp [hd]))
        (by
          rcases ts with _ | _
          · exact .inl rfl
          · exact .inr ⟨w, hw⟩)
      simp only [retain_ne_ids, hu, hw, unwrapE, Val.asStr, unwrapOpt, bind, Except.bind,
        ih', List.filter_cons, hu', hw']
      by_cases he : u = w <;> simp [he]

theorem retain_ne_ids_ok_inv {r : Val} {docs kept : List Val}
    (h : retain_ne_ids r docs = .ok kept) :
    (∀ d ∈ docs, HasStrId d) ∧ (docs ≠ [] → HasStrId r) ∧
      kept = docs.filter (fun d => idStrOf d != idStrOf r) := by
  induction docs generalizing kept with
  | nil =>
      simp only [retain_ne_ids] at h
      injection h with h
      subst h
      exact ⟨by simp, by simp, rfl⟩
  | cons t ts ih =>
      simp only [retain_ne_ids, bind, Except.bind] at h
      cases hg : get_nested_value t "id" with
      | error e => rw [hg] at h; exact absurd h (by simp [unwrapE])
      | ok v =>
          rw [hg] at h
          cases hgr : get_nested_value r "id" with
          | error e => rw [hgr] at h; exact absurd h (by simp [unwrapE])
          | ok vr =>
              rw [hgr] at h
              simp only [unwrapE] at h
              cases hs : v.asStr with
              | none => rw [hs] at h; exact absurd h (by simp [unwrapOpt])
              | some u =>
                  rw [hs] at h
                  cases hsr : vr.asStr with
                  | none => rw [hsr] at h; exact absurd h (by simp [unwrapOpt])
                  | some w =>
                      rw [hsr] at h
                      simp only [unwrapOpt] at h
                      cases hrr : retain_ne_ids r ts with
                      | error e => rw [hrr] at h; exact absurd h (by simp)
                      | ok rest =>
                          rw [hrr] at h
                          obtain ⟨hall, _, hrest⟩ := ih hrr
                          have hv : v = .str u := Val.asStr_eq_some.mp hs
                          have hvr : vr = .str w := Val.asStr_eq_some.mp hsr
                          have hid : idStrOf t = some u := idStrOf_eq_some.mpr (hv ▸ hg)
                          have hidr : idStrOf r = some w := idStrOf_eq_some.mpr (hvr ▸ hgr)
                          refine ⟨?_, fun _ => ⟨w, hvr ▸ hgr⟩, ?_⟩
                          · intro d hd
                            rcases List.mem_cons.mp hd with rfl | hmem
                            · exact ⟨u, hv ▸ hg⟩
                            · exact hall d hmem
                          · injection h with h
                            subst hrest
                            rw [← h]
                            simp only [List.filter_cons, hid, hidr]
                            by_cases he : u = w <;> simp [he]

theorem delete_loop_ok {result docs : List Val}
    (hdocs : ∀ d ∈ docs, HasStrId d) (hres : ∀ r ∈ result, HasStrId r) :
    delete_loop result docs =
      .ok (docs.filter (fun t => !((result.map idStrOf).contains (idStrOf t)))) := by
  induction result generalizing docs with
  | nil =>
      simp only [delete_loop, List.map_nil]
      have : docs.filter (fun t => !(([] : List (Option String)).contains (idStrOf t))) = docs := by
        simp
      rw [this]
  | cons r rs ih =>
      have hret := retain_ne_ids_ok hdocs
        (by
          rcases docs with _ | _
          · exact .inl rfl
          · exact .inr (hres r (by simp)))
      simp only [delete_loop, bind, Except.bind, hret]
      rw [ih (fun d hd => hdocs d (List.mem_filter.mp hd).1)
        (fun q hq => hres q (by simp [hq]))]
      rw [List.filter_filter]
      congr 1
      refine List.filter_congr (fun t _ => ?_)
      simp only [List.map_cons, List.contains_cons]
      cases hb : idStrOf t == idStrOf r <;>
        cases hc : (rs.map idStrOf).contains (idStrOf t) <;>
          simp_all [bne]

theorem find_same_id_none {nv : Val} {ns : String} (hn : nv.asStr = some ns)
    {docs : List Val} (h : ∀ d ∈ docs, ∃ u, idStrOf d = some u ∧ u ≠ ns) :
    find_same_id nv docs = .ok none := by
  obtain rfl : nv = .str ns := Val.asStr_eq_some.mp hn
  induction docs with
  | nil => rfl
  | cons t ts ih =>
      obtain ⟨u, hu, hne⟩ := h t (by simp)
      rw [idStrOf_eq_some] at hu
      simp only [find_same_id, hu, unwrapE, Val.asStr, unwrapOpt, bind, Except.bind]
      simp only [hne, if_false]
      exact ih (fun d hd => h d (by simp [hd]))

theorem find_same_id_some {nv : Val} {ns : String} (hn : nv.asStr = some ns)
    {docs : List Val} (hall : ∀ d ∈ docs, HasStrId d)
    (h : ∃ d ∈ docs, idStrOf d = some ns) :
    ∃ d₀, find_same_id nv docs = .ok (some d₀) := by
  obtain rfl : nv = .str ns := Val.asStr_eq_some.mp hn
  induction docs with
  | nil => simp at h
  | cons t ts ih =>
      obtain ⟨u, hu⟩ := hall t (by simp)
      have hu' : idStrOf t = some u := idStrOf_eq_some.mpr hu
      simp only [find_same_id, hu, unwrapE, Val.asStr, unwrapOpt, bind, Except.bind]
      by_cases he : u = ns
      · simp [he]
      · simp only [he, if_false]
        refine ih (fun d hd => hall d (by simp [hd])) ?_
        obtain ⟨d, hd, hds⟩ := h
        rcases List.mem_cons.mp hd with rfl | hmem
        · exact absurd (hu' ▸ hds) (by simp [he])
        · exact ⟨d, hmem, hds⟩

theorem filter_results_error {key_chain : String} {c : Comparator} {result : List Val}
    (h : ∃ d ∈ result, ∃ e, get_nested_value d key_chain = .error e) :
    filter_results key_chain c result = .error .panicked := by
  induction result with
  | nil => simp at h
  | cons t ts ih =>
      simp only [filter_results, bind, Except.bind]
      cases hg : get_nested_value t key_chain with
      | error e => simp [unwrapE]
      | ok v =>
          simp only [unwrapE]
          have h' : ∃ d ∈ ts, ∃ e, get_nested_value d key_chain = .error e := by
            obtain ⟨d, hd, e, he⟩ := h
            rcases List.mem_cons.mp hd with rfl | hmem
            · rw [hg] at he; exact absurd he (by simp)
            · exact ⟨d, hmem, e, he⟩
          rw [ih h']

theorem lookupTable_eq_none {s : Store} {t : String} :
    lookupTable s t = none ↔ ∀ p ∈ s, p.1 ≠ t := by
  simp [lookupTable, List.find?_eq_none]

theorem lookupTable_cons {p : String × List Val} {ps : Store} {t : String} :
    lookupTable (p :: ps) t = if p.1 = t then some p.2 else lookupTable ps t := by
  by_cases hp : p.1 = t
  · simp [lookupTable, List.find?_cons_of_pos, hp]
  · simp [lookupTable, List.find?_cons_of_neg, hp]

theorem setTable_cons {p : String × List Val} {ps : Store} {t : String} {docs : List Val} :
    setTable (p :: ps) t docs =
      (if p.1 = t then (t, docs) else p) :: setTable ps t docs := by
  by_cases hp : p.1 = t <;> simp [setTable, hp]

theorem lookupTable_append_absent {s : Store} {t : String} (d0 : List Val)
    (h : lookupTable s t = none) :
    lookupTable (s ++ [(t, d0)]) t = some d0 := by
  induction s with
  | nil => simp [lookupTable, List.find?]
  | cons p ps ih =>
      rw [List.cons_append, lookupTable_cons]
      rw [lookupTable_cons] at h
      by_cases hp : p.1 = t
      · simp [hp] at h
      · simp only [hp, if_false] at h ⊢
        exact ih h

theorem setTable_append_absent {s : Store} {t : String} (d0 docs : List Val)
    (h : lookupTable s t = none) :
    setTable (s ++ [(t, d0)]) t docs = s ++ [(t, docs)] := by
  have hall := lookupTable_eq_none.mp h
  induction s with
  | nil => simp [setTable]
  | cons p ps ih =>
      rw [List.cons_append, setTable_cons]
      have hp : p.1 ≠ t := hall p (by simp)
      simp only [hp, if_false]
      rw [ih (by rw [lookupTable_cons] at h; simpa [hp] using h)
        (fun q hq => hall q (by simp [hq]))]
      simp

theorem setTable_lookup_self {s : Store} {t : String} {d0 : List Val}
    (h : lookupTable s t = some d0) (docs : List Val) :
    lookupTable (setTable s t docs) t = some docs := by
  induction s with
  | nil => simp [lookupTable] at h
  | cons p ps ih =>
      rw [lookupTable_cons] at h
      rw [setTable_cons, lookupTable_cons]
      by_cases hp : p.1 = t
      · simp [hp]
      · simp only [hp, if_false] at h ⊢
        exact ih h

theorem add_empty_table_present {s : Store} {t : String} {docs : List Val}
    (h : lookupTable s t = some docs) : add_empty_table s t = s := by
  simp [add_empty_table, h]

theorem add_empty_table_absent {s : Store} {t : String}
    (h : lookupTable s t = none) : add_empty_table s t = s ++ [(t, [])] := by
  simp [add_empty_table, h]

theorem insert_id_panic {s : Store} {t : String} {new_item : Val} {or_ : Bool} {e : DbErr}
    (hid : get_nested_value new_item "id" = .error e) :
    insert_into_table s t new_item or_ = .error .panicked := by
  simp [insert_into_table, hid, unwrapE, bind, Except.bind]

theorem insert_absent_no_create {s : Store} {t : String} {new_item idv : Val}
    (hid : get_nested_value new_item "id" = .ok idv)
    (habs : lookupTable s t = none) :
    insert_into_table s t new_item false = .error .tableNotFound := by
  simp [insert_into_table, hid, unwrapE, bind, Except.bind, get_table_vec, habs]

theorem insert_absent_create {s : Store} {t : String} {new_item idv : Val}
    (hid : get_nested_value new_item "id" = .ok idv)
    (habs : lookupTable s t = none) :
    insert_into_table s t new_item true = .ok (s ++ [(t, [new_item])]) := by
  simp only [insert_into_table, hid, unwrapE, bind, Except.bind, if_true,
    add_empty_table_absent habs, get_table_vec, lookupTable_append_absent [] habs]
  simp only [List.not_mem_nil, if_false, find_same_id, hsInsert, List.nil_append]
  rw [setTable_append_absent [] [new_item] habs]

theorem insert_dup_struct {s : Store} {t : String} {new_item idv : Val} {ns : String}
    {docs : List Val} {or_ : Bool}
    (hid : get_nested_value new_item "id" = .ok idv) (hns : idv.asStr = some ns)
    (hdocs : lookupTable s t = some docs) (hmem : new_item ∈ docs) :
    insert_into_table s t new_item or_ = .error .recordAlreadyExists := by
  have hs1 : (if or_ then add_empty_table s t else s) = s := by
    cases or_ <;> simp [add_empty_table_present hdocs]
  simp [insert_into_table, hid, unwrapE, unwrapOpt, bind, Except.bind, hs1,
    get_table_vec, hdocs, hmem, hns]

theorem insert_dup_id {s : Store} {t : String} {new_item idv : Val} {ns : String}
    {docs : List Val} {or_ : Bool}
    (hid : get_nested_value new_item "id" = .ok idv) (hns : idv.asStr = some ns)
    (hdocs : lookupTable s t = some docs) (hmem : new_item ∉ docs)
    (hall : ∀ d ∈ docs, HasStrId d) (hdup : ∃ d ∈ docs, idStrOf d = some ns) :
    insert_into_table s t new_item or_ = .error .recordAlreadyExists := by
  have hs1 : (if or_ then add_empty_table s t else s) = s := by
    cases or_ <;> simp [add_empty_table_present hdocs]
  obtain ⟨d₀, hfind⟩ := find_same_id_some hns hall hdup
  simp [insert_into_table, hid, unwrapE, bind, Except.bind, hs1,
    get_table_vec, hdocs, hmem, hfind]

theorem insert_ok {s : Store} {t : String} {new_item idv : Val} {ns : String}
    {docs : List Val} {or_ : Bool}
    (hid : get_nested_value new_item "id" = .ok idv) (hns : idv.asStr = some ns)
    (hdocs : lookupTable s t = some docs) (hmem : new_item ∉ docs)
    (hall : ∀ d ∈ docs, ∃ u, idStrOf d = some u ∧ u ≠ ns) :
    insert_into_table s t new_item or_ = .ok (setTable s t (docs ++ [new_item])) := by
  have hs1 : (if or_ then add_empty_table s t else s) = s := by
    cases or_ <;> simp [add_empty_table_present hdocs]
  simp [insert_into_table, hid, unwrapE, bind, Except.bind, hs1,
    get_table_vec, hdocs, hmem, find_same_id_none hns hall, hsInsert]

theorem update_id_panic {s : Store} {table : String} {new_item : Val} {result : List Val}
    (h : idStrOf new_item = none) :
    update_table s table new_item result = .error .panicked := by
  rcases idStrOf_none_cases h with ⟨e, he⟩ | ⟨v, hv, hvs⟩
  · simp [update_table, he, unwrapE, bind, Except.bind]
  · simp [update_table, hv, hvs, unwrapE, unwrapOpt, bind, Except.bind]

theorem update_not_found {s : Store} {table : String} {new_item idv : Val} {ns : String}
    {result : List Val}
    (hid : get_nested_value new_item "id" = .ok idv) (hns : idv.asStr = some ns)
    (hres : ∀ d ∈ result, ∃ u, idStrOf d = some u ∧ u ≠ ns) :
    update_table s table new_item result = .error .recordNotFound := by
  simp [update_table, hid, hns, unwrapE, unwrapOpt, bind, Except.bind,
    find_update_target_none hres]

theorem update_found_ok {s : Store} {table : String} {new_item idv : Val} {ns : String}
    {result docs : List Val}
    (hid : get_nested_value new_item "id" = .ok idv) (hns : idv.asStr = some ns)
    (hall : ∀ d ∈ result, HasStrId d) (hex : ∃ d ∈ result, idStrOf d = some ns)
    (hdocs : lookupTable s table = some docs) (halld : ∀ d ∈ docs, HasStrId d) :
    update_table s table new_item result =
      .ok (setTable s table
        (docs.filter (fun d => idStrOf d != some ns) ++ [new_item])) := by
  obtain rfl : idv = .str ns := Val.asStr_eq_some.mp hns
  obtain ⟨d₀, hfind, hmem, hd₀⟩ := find_update_target_some hall hex
  have hd₀' : get_nested_value d₀ "id" = .ok (.str ns) := idStrOf_eq_some.mp hd₀
  have hnew : idStrOf new_item = some ns := idStrOf_eq_some.mpr hid
  have hnotin : new_item ∉ docs.filter (fun d => idStrOf d != some ns) := by
    intro hmemf
    have := (List.mem_filter.mp hmemf).2
    simp [hnew] at this
  have hins : hsInsert (docs.filter (fun d => idStrOf d != some ns)) new_item =
      docs.filter (fun d => idStrOf d != some ns) ++ [new_item] := by
    simp [hsInsert, hnotin]
  simp [update_table, hid, unwrapE, unwrapOpt, bind, Except.bind, hfind,
    get_table_vec, hdocs, hd₀', Val.asStr, retain_ne_str_ok halld, hins]

theorem delete_absent {s : Store} {table : String} {result : List Val}
    (h : lookupTable s table = none) :
    delete_from_table s table result = .error .tableNotFound := by
  simp [delete_from_table, get_table_vec, h, bind, Except.bind]

theorem delete_ok {s : Store} {table : String} {result docs : List Val}
    (hdocs : lookupTable s table = some docs)
    (halld : ∀ d ∈ docs, HasStrId d) (hallr : ∀ r ∈ result, HasStrId r) :
    delete_from_table s table result =
      .ok (setTable s table
        (docs.filter (fun t => !((result.map idStrOf).contains (idStrOf t))))) := by
  simp [delete_from_table, get_table_vec, hdocs, bind, Except.bind,
    delete_loop_ok halld hallr]

theorem retain_ne_ids_panic {r : Val} {docs : List Val}
    (h : ∃ t ∈ docs, idStrOf t = none) :
    retain_ne_ids r docs = .error .panicked := by
  induction docs with
  | nil => simp at h
  | cons t ts ih =>
      simp only [retain_ne_ids, bind, Except.bind]
      cases hg : get_nested_value t "id" with
      | error e => simp [unwrapE]
      | ok v =>
          simp only [unwrapE]
          cases hgr : get_nested_value r "id" with
          | error e => simp
          | ok vr =>
              cases hs : v.asStr with
              | none => simp [hs, unwrapOpt]
              | some u =>
                  cases hsr : vr.asStr with
                  | none => simp [hs, hsr, unwrapOpt]
                  | some w =>
                      simp only [hs, hsr, unwrapOpt]
                      have h' : ∃ t ∈ ts, idStrOf t = none := by
                        obtain ⟨d, hd, hds⟩ := h
                        rcases List.mem_cons.mp hd with rfl | hmem
                        · exact absurd hds (by
                            rw [idStrOf]
                            simp [hg, hs])
                        · exact ⟨d, hmem, hds⟩
                      simp [ih h']

theorem delete_docs_panic {s : Store} {table : String} {r : Val} {rs : List Val}
    {docs : List Val}
    (hdocs : lookupTable s table = some docs)
    (h : ∃ t ∈ docs, idStrOf t = none) :
    delete_from_table s table (r :: rs) = .error .panicked := by
  simp [delete_from_table, get_table_vec, hdocs, bind, Except.bind, delete_loop,
    retain_ne_ids_panic h]

theorem get_table_vec_eq_ok {s : Store} {t : String} {docs : List Val} :
    get_table_vec s t = .ok docs ↔ lookupTable s t = some docs := by
  unfold get_table_vec
  cases h : lookupTable s t <;> simp

theorem find_update_target_some_inv {ns : String} {result : List Val} {d₀ : Val}
    (h : find_update_target ns result = .ok (some d₀)) :
    d₀ ∈ result ∧ idStrOf d₀ = some ns := by
  induction result with
  | nil => simp [find_update_target] at h
  | cons t ts ih =>
      simp only [find_update_target, bind, Except.bind] at h
      cases hg : get_nested_value t "id" with
      | error e => rw [hg] at h; exact absurd h (by simp [unwrapE])
      | ok v =>
          rw [hg] at h
          simp only [unwrapE] at h
          cases hs : v.asStr with
          | none => rw [hs] at h; exact absurd h (by simp [unwrapOpt])
          | some u =>
              rw [hs] at h
              simp only [unwrapOpt] at h
              by_cases he : u = ns
              · simp only [he, if_true] at h
                injection h with h
                injection h with h
                subst h
                subst he
                refine ⟨by simp, ?_⟩
                have hgv : get_nested_value t "id" = .ok (.str u) := by
                  rw [hg, Val.asStr_eq_some.mp hs]
                exact idStrOf_eq_some.mpr hgv
              · simp only [he, if_false] at h
                obtain ⟨hmem, hid⟩ := ih h
                exact ⟨by simp [hmem], hid⟩

theorem find_same_id_none_inv {nv : Val} {docs : List Val}
    (h : find_same_id nv docs = .ok none) :
    ∀ d ∈ docs, ∃ u ns, idStrOf d = some u ∧ nv.asStr = some ns ∧ u ≠ ns := by
  induction docs with
  | nil => simp
  | cons t ts ih =>
      simp only [find_same_id, bind, Except.bind] at h
      cases hg : get_nested_value t "id" with
      | error e => rw [hg] at h; exact absurd h (by simp [unwrapE])
      | ok v =>
          rw [hg] at h
          simp only [unwrapE] at h
          cases hs : v.asStr with
          | none => rw [hs] at h; exact absurd h (by simp [unwrapOpt])
          | some u =>
              rw [hs] at h
              cases hn : nv.asStr with
              | none => rw [hn] at h; exact absurd h (by simp [unwrapOpt])
              | some ns =>
                  rw [hn] at h
                  simp only [unwrapOpt] at h
                  by_cases he : u = ns
                  · rw [if_pos he] at h
                    exact absurd h (by simp)
                  · rw [if_neg he] at h
                    intro d hd
                    have hdu : ∀ w, get_nested_value d "id" = .ok (.str w) → w ≠ ns →
                        ∃ u ns_1, idStrOf d = some u ∧ some ns = some ns_1 ∧ u ≠ ns_1 :=
                      fun w hw hne => ⟨w, ns, idStrOf_eq_some.mpr hw, rfl, hne⟩
                    rcases List.mem_cons.mp hd with rfl | hmem
                    · exact hdu u (by rw [hg, Val.asStr_eq_some.mp hs]) he
                    · obtain ⟨u', ns', h1, h2, h3⟩ := ih h d hmem
                      rw [hn] at h2
                      injection h2 with h2
                      exact ⟨u', ns, h1, rfl, h2 ▸ h3⟩

theorem insert_into_table_ok_inv {s : Store} {t : String} {new_item : Val} {or_ : Bool}
    {s' : Store} (h : insert_into_table s t new_item or_ = .ok s') :
    ∃ idv docs, get_nested_value new_item "id" = .ok idv ∧
      lookupTable (if or_ then add_empty_table s t else s) t = some docs ∧
      new_item ∉ docs ∧ find_same_id idv docs = .ok none ∧
      s' = setTable (if or_ then add_empty_table s t else s) t (docs ++ [new_item]) := by
  simp only [insert_into_table, bind, Except.bind] at h
  cases hg : get_nested_value new_item "id" with
  | error e => rw [hg] at h; exact absurd h (by simp [unwrapE])
  | ok idv =>
      rw [hg] at h
      simp only [unwrapE] at h
      cases hv : get_table_vec (if or_ then add_empty_table s t else s) t with
      | error e => rw [hv] at h; exact absurd h (by simp)
      | ok docs =>
          rw [hv] at h
          dsimp only at h
          by_cases hmem : new_item ∈ docs
          · rw [if_pos hmem] at h
            exact absurd h (by cases hns : unwrapOpt idv.asStr <;> simp [hns])
          · rw [if_neg hmem] at h
            cases hf : find_same_id idv docs with
            | error e => rw [hf] at h; exact absurd h (by simp)
            | ok found =>
                rw [hf] at h
                cases found with
                | some d => exact absurd h (by simp)
                | none =>
                    refine ⟨idv, docs, rfl, get_table_vec_eq_ok.mp hv, hmem, hf, ?_⟩
                    injection h with h
                    rw [← h, hsInsert, if_neg hmem]

theorem update_table_ok_inv {s : Store} {table : String} {new_item : Val}
    {result : List Val} {s' : Store}
    (h : update_table s table new_item result = .ok s') :
    ∃ ns docs, idStrOf new_item = some ns ∧ lookupTable s table = some docs ∧
      (∀ d ∈ docs, HasStrId d) ∧
      s' = setTable s table
        (hsInsert (docs.filter (fun d => idStrOf d != some ns)) new_item) := by
  simp only [update_table, bind, Except.bind] at h
  cases hg : get_nested_value new_item "id" with
  | error e => rw [hg] at h; exact absurd h (by simp [unwrapE])
  | ok idv =>
      rw [hg] at h
      simp only [unwrapE] at h
      cases hns : idv.asStr with
      | none => rw [hns] at h; exact absurd h (by simp [unwrapOpt])
      | some ns =>
          rw [hns] at h
          simp only [unwrapOpt] at h
          cases hf : find_update_target ns result with
          | error e => rw [hf] at h; exact absurd h (by simp)
          | ok found =>
              rw [hf] at h
              cases found with
              | none => exact absurd h (by simp)
              | some d₀ =>
                  obtain ⟨hmem, hid₀⟩ := find_update_target_some_inv hf
                  cases hv : get_table_vec s table with
                  | error e => rw [hv] at h; exact absurd h (by simp)
                  | ok docs =>
                      rw [hv] at h
                      dsimp only at h
                      rw [idStrOf_eq_some.mp hid₀] at h
                      simp only [unwrapE, Val.asStr, unwrapOpt] at h
                      cases hr : retain_ne_str ns docs with
                      | error e => rw [hr] at h; exact absurd h (by simp)
                      | ok kept =>
                          rw [hr] at h
                          obtain ⟨hall, hkept⟩ := retain_ne_str_ok_inv hr
                          refine ⟨ns, docs,
                            idStrOf_eq_some.mpr (Val.asStr_eq_some.mp hns ▸ hg),
                            get_table_vec_eq_ok.mp hv, hall, ?_⟩
                          injection h with h
                          rw [← h, hkept]

theorem delete_loop_sublist {result docs docs' : List Val}
    (h : delete_loop result docs = .ok docs') : docs'.Sublist docs := by
  induction result generalizing docs with
  | nil =>
      simp only [delete_loop] at h
      injection h with h
      exact h ▸ List.Sublist.refl _
  | cons r rs ih =>
      simp only [delete_loop, bind, Except.bind] at h
      cases hr : retain_ne_ids r docs with
      | error e => rw [hr] at h; exact absurd h (by simp)
      | ok kept =>
          rw [hr] at h
          obtain ⟨_, _, hkept⟩ := retain_ne_ids_ok_inv hr
          exact (ih h).trans (hkept ▸ List.filter_sublist docs)

theorem delete_from_table_ok_inv {s : Store} {table : String} {result : List Val}
    {s' : Store} (h : delete_from_table s table result = .ok s') :
    ∃ docs docs', lookupTable s table = some docs ∧ docs'.Sublist docs ∧
      s' = setTable s table docs' := by
  simp only [delete_from_table, bind, Except.bind] at h
  cases hv : get_table_vec s table with
  | error e => rw [hv] at h; exact absurd h (by simp)
  | ok docs =>
      rw [hv] at h
      dsimp only at h
      cases hl : delete_loop result docs with
      | error e => rw [hl] at h; exact absurd h (by simp)
      | ok docs' =>
          rw [hl] at h
          injection h with h
          exact ⟨docs, docs', get_table_vec_eq_ok.mp hv, delete_loop_sublist hl, h.symm⟩

/-- The value of a document's top-level `id` field, when it resolves. -/
def getId (d : Val) : Option Val :=
  (get_nested_value d "id").toOption

theorem getId_of_idStrOf {d : Val} {u : String} (h : idStrOf d = some u) :
    getId d = some (.str u) := by
  rw [idStrOf_eq_some] at h
  simp [getId, h, Except.toOption]

/-- The table invariant of the spec: no two structurally identical
documents, and no two documents whose `id` fields are equal. -/
def TableInv (docs : List Val) : Prop :=
  docs.Pairwise (fun a b => a ≠ b ∧ getId a ≠ getId b)

/-- The store invariant: every table satisfies `TableInv`. -/
def StoreInv (s : Store) : Prop := ∀ p ∈ s, TableInv p.2

theorem TableInv_sublist {docs docs' : List Val} (h : TableInv docs)
    (hs : docs'.Sublist docs) : TableInv docs' :=
  h.sublist hs

theorem TableInv_append_one {docs : List Val} {new_item : Val} (h : TableInv docs)
    (hne : ∀ d ∈ docs, d ≠ new_item ∧ getId d ≠ getId new_item) :
    TableInv (docs ++ [new_item]) := by
  rw [TableInv, List.pairwise_append]
  exact ⟨h, List.pairwise_singleton _ _,
    fun a ha b hb => by rw [List.mem_singleton] at hb; subst hb; exact hne a ha⟩

theorem StoreInv_lookup {s : Store} {t : String} {docs : List Val}
    (hs : StoreInv s) (h : lookupTable s t = some docs) : TableInv docs := by
  simp only [lookupTable, Option.map_eq_some'] at h
  obtain ⟨p, hp, hp2⟩ := h
  exact hp2 ▸ hs p (List.mem_of_find?_eq_some hp)

theorem StoreInv_setTable {s : Store} {t : String} {docs : List Val}
    (hs : StoreInv s) (hd : TableInv docs) : StoreInv (setTable s t docs) := by
  intro p hp
  simp only [setTable, List.mem_map] at hp
  obtain ⟨q, hq, hfq⟩ := hp
  by_cases hqt : q.1 = t
  · rw [← hfq]
    have hb : (q.1 == t) = true := by simp [hqt]
    simp only [hb, if_true]
    exact hd
  · rw [← hfq]
    have hb : (q.1 == t) = false := by simp [hqt]
    simp [hb]
    exact hs q hq

theorem StoreInv_add_empty {s : Store} {t : String} (hs : StoreInv s) :
    StoreInv (add_empty_table s t) := by
  unfold add_empty_table
  by_cases h : (lookupTable s t).isSome
  · simpa [h] using hs
  · simp only [h, if_false]
    intro p hp
    rcases List.mem_append.mp hp with hmem | hmem
    · exact hs p hmem
    · rw [List.mem_singleton] at hmem
      subst hmem
      exact List.Pairwise.nil

theorem insert_preserves_inv {s : Store} {t : String} {new_item : Val} {or_ : Bool}
    {s' : Store} (hs : StoreInv s) (h : insert_into_table s t new_item or_ = .ok s') :
    StoreInv s' := by
  obtain ⟨idv, docs, hid, hdocs, hmem, hfind, hs'⟩ := insert_into_table_ok_inv h
  have hs1 : StoreInv (if or_ then add_empty_table s t else s) := by
    cases or_ <;> simp [StoreInv_add_empty hs, hs]
  have hinv : TableInv docs := StoreInv_lookup hs1 hdocs
  have hnewid : ∀ d ∈ docs, d ≠ new_item ∧ getId d ≠ getId new_item := by
    intro d hd
    obtain ⟨u, ns, hu, hnvs, hune⟩ := find_same_id_none_inv hfind d hd
    have hnew : getId new_item = some (.str ns) := by
      rw [getId, hid]
      simp [Val.asStr_eq_some.mp hnvs, Except.toOption]
    have hdid : getId d = some (.str u) := getId_of_idStrOf hu
    have hne : getId d ≠ getId new_item := by
      rw [hdid, hnew]
      simp [hune]
    exact ⟨fun he => hne (he ▸ rfl), hne⟩
  subst hs'
  exact StoreInv_setTable hs1 (TableInv_append_one hinv hnewid)

theorem update_preserves_inv {s : Store} {table : String} {new_item : Val}
    {result : List Val} {s' : Store} (hs : StoreInv s)
    (h : update_table s table new_item result = .ok s') : StoreInv s' := by
  obtain ⟨ns, docs, hns, hdocs, hall, hs'⟩ := update_table_ok_inv h
  have hinv : TableInv docs := StoreInv_lookup hs hdocs
  have hkept : TableInv (docs.filter (fun d => idStrOf d != some ns)) :=
    TableInv_sublist hinv (List.filter_sublist docs)
  subst hs'
  refine StoreInv_setTable hs ?_
  rw [hsInsert]
  by_cases hmem : new_item ∈ docs.filter (fun d => idStrOf d != some ns)
  · simpa [hmem] using hkept
  · simp only [hmem, if_false]
    refine TableInv_append_one hkept ?_
    intro d hd
    obtain ⟨hdm, hdf⟩ := List.mem_filter.mp hd
    obtain ⟨u, hu⟩ := hall d hdm
    have hdu : idStrOf d = some u := idStrOf_eq_some.mpr hu
    have hune : u ≠ ns := by
      rw [hdu] at hdf
      simpa using hdf
    have hne : getId d ≠ getId new_item := by
      rw [getId_of_idStrOf hdu, getId_of_idStrOf hns]
      simp [hune]
    exact ⟨fun he => hne (he ▸ rfl), hne⟩

theorem delete_preserves_inv {s : Store} {table : String} {result : List Val}
    {s' : Store} (hs : StoreInv s)
    (h : delete_from_table s table result = .ok s') : StoreInv s' := by
  obtain ⟨docs, docs', hdocs, hsub, hs'⟩ := delete_from_table_ok_inv h
  subst hs'
  exact StoreInv_setTable hs (TableInv_sublist (StoreInv_lookup hs hdocs) hsub)

theorem applyDone_preserves_inv {db : DB} {result : List Val} {m : Option MethodName}
    {db' : DB} {res : List Val} (hs : StoreInv db.value)
    (h : applyDone db result m = (db', .ok res)) : StoreInv db'.value := by
  match m with
  | none =>
      simp only [applyDone] at h
      have h1 : save db = db' := congrArg Prod.fst h
      rw [← h1]
      exact hs
  | some (.Read t) =>
      simp only [applyDone] at h
      have h1 : save db = db' := congrArg Prod.fst h
      rw [← h1]
      exact hs
  | some (.Create t item or_) =>
      simp only [applyDone] at h
      cases hi : insert_into_table db.value t item or_ with
      | error e =>
          rw [hi] at h
          dsimp only at h
          exact absurd (congrArg Prod.snd h) (by simp)
      | ok value' =>
          rw [hi] at h
          dsimp only at h
          have h1 : save { db with value := value' } = db' := congrArg Prod.fst h
          rw [← h1]
          exact insert_preserves_inv hs hi
  | some (.Update t item) =>
      simp only [applyDone] at h
      cases hi : update_table db.value t item result with
      | error e =>
          rw [hi] at h
          dsimp only at h
          exact absurd (congrArg Prod.snd h) (by simp)
      | ok value' =>
          rw [hi] at h
          dsimp only at h
          have h1 : save { db with value := value' } = db' := congrArg Prod.fst h
          rw [← h1]
          exact update_preserves_inv hs hi
  | some (.Delete t) =>
      simp only [applyDone] at h
      cases hi : delete_from_table db.value t result with
      | error e =>
          rw [hi] at h
          dsimp only at h
          exact absurd (congrArg Prod.snd h) (by simp)
      | ok value' =>
          rw [hi] at h
          dsimp only at h
          have h1 : save { db with value := value' } = db' := congrArg Prod.fst h
          rw [← h1]
          exact delete_preserves_inv hs hi

theorem runAux_preserves_inv {db : DB} {l : List Runner} {result : List Val}
    {kc : String} {m : Option MethodName} {db' : DB} {res : List Val}
    (hs : StoreInv db.value)
    (h : runAux db l result kc m = (db', .ok res)) : StoreInv db'.value := by
  induction l generalizing result kc m with
  | nil =>
      simp only [runAux] at h
      have h1 : db = db' := congrArg Prod.fst h
      rw [← h1]
      exact hs
  | cons r rest ih =>
      match r with
      | .Done => exact applyDone_preserves_inv hs h
      | .Method mm => exact ih h
      | .Where f => exact ih h
      | .Compare c =>
          simp only [runAux] at h
          cases hf : filter_results kc c result with
          | error e =>
              rw [hf] at h
              dsimp only at h
              exact absurd (congrArg Prod.snd h) (by simp)
          | ok result' =>
              rw [hf] at h
              exact ih h

theorem run_preserves_inv {db : DB} {runners : List Runner} {db' : DB}
    {res : List Val} (hs : StoreInv db.value)
    (h : run db runners = (db', .ok res)) : StoreInv db'.value :=
  runAux_preserves_inv hs h

/-- The stores reachable through the public operations: the empty store
(a fresh database file), `add_table`, and any successful `run` (any file
content, since `run` never reads the file component). -/
inductive Reachable : Store → Prop where
  | empty : Reachable []
  | addTableStep (s : Store) (file t : String) :
      Reachable s → Reachable (add_table ⟨s, file⟩ t).value
  | runStep (s : Store) (file : String) (rs : List Runner) (db' : DB)
      (res : List Val) : Reachable s → run ⟨s, file⟩ rs = (db', .ok res) →
      Reachable db'.value

/-- The path-resolver contract stated from the spec's words (§4.1): split
the path on `.`; descend one segment at a time through object fields;
return the resolved value when every segment is present; fail with
`PathNotFound` when a segment is absent from the current object; fail
with `NotAnObject` when an intermediate value is not object-shaped. -/
inductive PathResolverSpec : List String → Val → Except DbErr Val → Prop where
  | nil (v : Val) : PathResolverSpec [] v (.ok v)
  | descend (k : String) (ks : List String) (fields : List (String × Val)) (v : Val)
      (r : Except DbErr Val) : lookupField fields k = some v →
      PathResolverSpec ks v r → PathResolverSpec (k :: ks) (.obj fields) r
  | missing (k : String) (ks : List String) (fields : List (String × Val)) :
      lookupField fields k = none →
      PathResolverSpec (k :: ks) (.obj fields) (.error .pathNotFound)
  | notObj (k : String) (ks : List String) (v : Val) :
      (∀ fields, v ≠ .obj fields) →
      PathResolverSpec (k :: ks) v (.error .notAnObject)

theorem resolve_segments_meets_spec (parts : List String) (data : Val) :
    PathResolverSpec parts data (resolve_segments parts data) := by
  induction parts generalizing data with
  | nil => exact .nil data
  | cons k ks ih =>
      cases data with
      | obj fields =>
          cases hl : lookupField fields k with
          | some v =>
              simp only [resolve_segments, hl]
              exact .descend k ks fields v _ hl (ih v)
          | none =>
              simp only [resolve_segments, hl]
              exact .missing k ks fields hl
      | null => exact .notObj k ks _ (fun f h => Val.noConfusion h)
      | bool b => exact .notObj k ks _ (fun f h => Val.noConfusion h)
      | num n => exact .notObj k ks _ (fun f h => Val.noConfusion h)
      | str s => exact .notObj k ks _ (fun f h => Val.noConfusion h)
      | arr xs => exact .notObj k ks _ (fun f h => Val.noConfusion h)

theorem save_file_serializes (db : DB) :
    (save db).file = serialize_store (save db).value := rfl

theorem applyDone_file {db : DB} {result : List Val} {m : Option MethodName}
    {db' : DB} {res : List Val} (h : applyDone db result m = (db', .ok res)) :
    db'.file = serialize_store db'.value := by
  match m with
  | none =>
      have h1 : save db = db' := congrArg Prod.fst h
      rw [← h1]
      rfl
  | some (.Read t) =>
      have h1 : save db = db' := congrArg Prod.fst h
      rw [← h1]
      rfl
  | some (.Create t item or_) =>
      simp only [applyDone] at h
      cases hi : insert_into_table db.value t item or_ with
      | error e =>
          rw [hi] at h
          dsimp only at h
          exact absurd (congrArg Prod.snd h) (by simp)
      | ok value' =>
          rw [hi] at h
          dsimp only at h
          have h1 : save { db with value := value' } = db' := congrArg Prod.fst h
          rw [← h1]
          rfl
  | some (.Update t item) =>
      simp only [applyDone] at h
      cases hi : update_table db.value t item result with
      | error e =>
          rw [hi] at h
          dsimp only at h
          exact absurd (congrArg Prod.snd h) (by simp)
      | ok value' =>
          rw [hi] at h
          dsimp only at h
          have h1 : save { db with value := value' } = db' := congrArg Prod.fst h
          rw [← h1]
          rfl
  | some (.Delete t) =>
      simp only [applyDone] at h
      cases hi : delete_from_table db.value t result with
      | error e =>
          rw [hi] at h
          dsimp only at h
          exact absurd (congrArg Prod.snd h) (by simp)
      | ok value' =>
          rw [hi] at h
          dsimp only at h
          have h1 : save { db with value := value' } = db' := congrArg Prod.fst h
          rw [← h1]
          rfl

theorem runAux_done_file {db : DB} {l : List Runner} {result : List Val}
    {kc : String} {m : Option MethodName} {db' : DB} {res : List Val}
    (hdone : Runner.Done ∈ l)
    (h : runAux db l result kc m = (db', .ok res)) :
    db'.file = serialize_store db'.value := by
  induction l generalizing result kc m with
  | nil => simp at hdone
  | cons r rest ih =>
      match r with
      | .Done => exact applyDone_file h
      | .Method mm =>
          exact ih (by simpa using hdone) h
      | .Where f =>
          exact ih (by simpa using hdone) h
      | .Compare c =>
          simp only [runAux] at h
          cases hf : filter_results kc c result with
          | error e =>
              rw [hf] at h
              dsimp only at h
              exact absurd (congrArg Prod.snd h) (by simp)
          | ok result' =>
              rw [hf] at h
              exact ih (by simpa using hdone) h

theorem find_update_target_panic {s : String} {result : List Val}
    (hno : ∀ d ∈ result, idStrOf d ≠ some s)
    (hbad : ∃ d ∈ result, idStrOf d = none) :
    find_update_target s result = .error .panicked := by
  induction result with
  | nil => simp at hbad
  | cons t ts ih =>
      simp only [find_update_target, bind, Except.bind]
      cases hg : get_nested_value t "id" with
      | error e => simp [unwrapE]
      | ok v =>
          simp only [unwrapE]
          cases hs : v.asStr with
          | none => simp [hs, unwrapOpt]
          | some u =>
              simp only [hs, unwrapOpt]
              have hu : idStrOf t = some u :=
                idStrOf_eq_some.mpr (Val.asStr_eq_some.mp hs ▸ hg)
              have hune : u ≠ s := by
                intro he
                exact hno t (by simp) (he ▸ hu)
              simp only [hune, if_false]
              refine ih (fun d hd => hno d (by simp [hd])) ?_
              obtain ⟨d, hd, hds⟩ := hbad
              rcases List.mem_cons.mp hd with rfl | hmem
              · exact absurd hds (by simp [hu])
              · exact ⟨d, hmem, hds⟩

/-- C5 counterexample: applying `NotEquals` to a value of mismatching
shape (a number) yields `true` — the document matches — contradicting the
claim that a type mismatch always yields false for every comparator. -/
theorem notEquals_mismatch_matches :
    filter_with_conmpare (.num 0) (.NotEquals "a") = true := by decide

/-- C5 (amended): For every resolved value: Equals and In match only when
the value is a string, LessThan/GreaterThan/Between (inclusive) match
only when the value is an unsigned integer, and a mismatching shape
yields false for these five comparators; NotEquals instead matches
exactly when the value is not the given string, so every value of
mismatching shape matches NotEquals (yields true).  There is no coercion
between string and numeric representations. -/
theorem comparator_shape_semantics (v : Val) (strv : String) (n lo hi : Nat)
    (vs : List String) :
    (filter_with_conmpare v (.Equals strv) = true ↔ v = .str strv) ∧
    (filter_with_conmpare v (.NotEquals strv) = true ↔ v ≠ .str strv) ∧
    (filter_with_conmpare v (.LessThan n) = true ↔ ∃ m, v = .num m ∧ m < n) ∧
    (filter_with_conmpare v (.GreaterThan n) = true ↔ ∃ m, v = .num m ∧ n < m) ∧
    (filter_with_conmpare v (.In vs) = true ↔ ∃ x, v = .str x ∧ x ∈ vs) ∧
    (filter_with_conmpare v (.Between lo hi) = true ↔
      ∃ m, v = .num m ∧ lo ≤ m ∧ m ≤ hi) := by
  cases v <;> simp [filter_with_conmpare, Val.asStr, Val.asU64]

/-- C6: For every run containing a Compare operation, if some document in
the current working result lacks the active dotted path, the whole drain
aborts with a panic, returning the database unchanged (nothing is
persisted); the document is not silently excluded from the result set. -/
theorem compare_missing_path_aborts_run (db : DB) (rest : List Runner)
    (result : List Val) (key_chain : String) (c : Comparator)
    (method : Option MethodName)
    (h : ∃ d ∈ result, ∃ e, get_nested_value d key_chain = .error e) :
    runAux db (.Compare c :: rest) result key_chain method =
      (db, .error .panicked) := by
  simp [runAux, filter_results_error h]

/-- C6 witness: a concrete run in which the second document lacks the
active path aborts. -/
theorem compare_missing_path_aborts_run_witness :
    runAux ⟨[("t", [Val.obj [("a", .str "x")], Val.obj [("b", .num 1)]])], ""⟩
      [.Compare (.Equals "x"), .Done]
      [Val.obj [("a", .str "x")], Val.obj [("b", .num 1)]] "a"
      (some (.Read "t")) =
      (⟨[("t", [Val.obj [("a", .str "x")], Val.obj [("b", .num 1)]])], ""⟩,
        .error .panicked) :=
  compare_missing_path_aborts_run _ _ _ _ _ _
    ⟨Val.obj [("b", .num 1)], by decide, .pathNotFound, by decide⟩

/-- C7: For every document and dotted path string, the path resolver
splits the path on `.` and descends one segment at a time, returning the
resolved value when every segment is present, failing with PathNotFound
when some segment is absent from the current object, and failing with
NotAnObject when an intermediate value to be descended into is not
object-shaped.  (The resolver is a pure Lean function of its arguments,
so it cannot mutate its input.) -/
theorem get_nested_value_meets_path_spec (data : Val) (key_chain : String) :
    PathResolverSpec (splitDot key_chain) data
      (get_nested_value data key_chain) :=
  resolve_segments_meets_spec (splitDot key_chain) data

/-- C9: A run whose pending action reads an absent table succeeds with
the empty result sequence rather than failing with TableNotFound, and the
seeding step of the drain loop seeds the empty working result from an
absent table for every action kind. -/
theorem read_absent_table_empty (db : DB) (T : String)
    (h : lookupTable db.value T = none) :
    run db [.Method (.Read T)] = (save db, .ok []) ∧
    (∀ (rest : List Runner) (r0 : List Val) (kc : String)
        (m0 : Option MethodName) (m : MethodName), m.tableName = T →
        runAux db (.Method m :: rest) r0 kc m0 = runAux db rest [] kc (some m)) := by
  constructor
  · simp [run, runAux, get_table_vec, MethodName.tableName, h, applyDone, Except.toOption]
  · intro rest r0 kc m0 m hm
    simp [runAux, get_table_vec, hm, h, Except.toOption]

/-- C9 witness: reading the absent table `ghosts` from a one-table store
returns success with the empty sequence. -/
theorem read_absent_table_empty_witness :
    run ⟨[("users", [Val.obj [("id", .str "1")]])], ""⟩ [.Method (.Read "ghosts")] =
      (save ⟨[("users", [Val.obj [("id", .str "1")]])], ""⟩, .ok []) :=
  (read_absent_table_empty ⟨[("users", [Val.obj [("id", .str "1")]])], ""⟩ "ghosts"
    (by decide)).1

/-- Sample documents and store used by the concrete witnesses. -/
def wDoc1 : Val := .obj [("id", .str "1"), ("name", .str "Jane")]

/-- A second sample document with a distinct id. -/
def wDoc2 : Val := .obj [("id", .str "2"), ("name", .str "Janet")]

/-- A replacement document sharing `wDoc1`'s id. -/
def wNew1 : Val := .obj [("id", .str "1"), ("name", .str "John")]

/-- A document whose `id` is a number rather than a string. -/
def wBad : Val := .obj [("id", .num 7)]

/-- A sample database handle holding one `users` table. -/
def wDB : DB := ⟨[("users", [wDoc1, wDoc2])], ""⟩

/-- C1: For every run whose pending action is Update(T, newDoc) (modelled
at the `Done` step, where `result` is the filtered working result): if no
document of `result` has an `id` equal to newDoc's `id`, the run fails
with RecordNotFound and the store — the in-memory `value` and the on-disk
`file` alike — is returned exactly as it was; if such a document exists,
every document of table T whose `id` equals the matched id is removed,
newDoc is inserted, the store is saved, and the run returns `[newDoc]`.
The identity preconditions (string ids throughout) keep the unwraps of
the Rust code from panicking. -/
theorem update_run_semantics (db : DB) (T : String) (newDoc : Val)
    (result docs : List Val) (s : String)
    (hid : get_nested_value newDoc "id" = .ok (.str s))
    (hres : ∀ d ∈ result, HasStrId d)
    (hT : lookupTable db.value T = some docs)
    (hdocs : ∀ d ∈ docs, HasStrId d) :
    ((∀ d ∈ result, idStrOf d ≠ some s) →
        applyDone db result (some (.Update T newDoc)) =
          (db, .error .recordNotFound)) ∧
    ((∃ d ∈ result, idStrOf d = some s) →
        applyDone db result (some (.Update T newDoc)) =
          (save { db with value := (setTable db.value T
              (docs.filter (fun d => idStrOf d != some s) ++ [newDoc])) },
            .ok [newDoc])) := by
  constructor
  · intro hno
    have hres' : ∀ d ∈ result, ∃ u, idStrOf d = some u ∧ u ≠ s := by
      intro d hd
      obtain ⟨u, hu⟩ := hres d hd
      have hu' : idStrOf d = some u := idStrOf_eq_some.mpr hu
      exact ⟨u, hu', fun he => hno d hd (he ▸ hu')⟩
    simp [applyDone, update_not_found hid rfl hres']
  · intro hex
    simp [applyDone, update_found_ok hid rfl hres hex hT hdocs]

/-- C1 witness: updating id "1" in the sample store replaces `wDoc1` by
`wNew1` and returns `[wNew1]`. -/
theorem update_run_semantics_witness :
    applyDone wDB [wDoc1, wDoc2] (some (.Update "users" wNew1)) =
      (save { wDB with value := (setTable wDB.value "users"
          ([wDoc1, wDoc2].filter (fun d => idStrOf d != some "1") ++ [wNew1])) },
        .ok [wNew1]) :=
  (update_run_semantics wDB "users" wNew1 [wDoc1, wDoc2] [wDoc1, wDoc2] "1"
      (by decide)
      (fun d hd => by
        rcases List.mem_cons.mp hd with rfl | hd
        · exact ⟨"1", by decide⟩
        · rcases List.mem_cons.mp hd with rfl | hd
          · exact ⟨"2", by decide⟩
          · simp at hd)
      (by decide)
      (fun d hd => by
        rcases List.mem_cons.mp hd with rfl | hd
        · exact ⟨"1", by decide⟩
        · rcases List.mem_cons.mp hd with rfl | hd
          · exact ⟨"2", by decide⟩
          · simp at hd)).2
    ⟨wDoc1, by decide, by decide⟩

/-- C2: For every run whose pending action is Create(T, doc, createIfMissing),
modelled at the `Done` step: if T is absent and createIfMissing is false,
the run fails with TableNotFound; if T is absent and createIfMissing is
true, T is created empty first and doc becomes its only document; if doc
is structurally identical to an existing document of T or any existing
document shares doc's `id`, the run fails with RecordAlreadyExists and
the store is returned unchanged; otherwise doc is inserted into T.  The
hypothesis that doc's `id` is a string keeps the identity unwraps from
panicking. -/
theorem create_run_semantics (db : DB) (T : String) (newDoc : Val)
    (result : List Val) (s : String) (or_ : Bool)
    (hid : get_nested_value newDoc "id" = .ok (.str s)) :
    (lookupTable db.value T = none →
        applyDone db result (some (.Create T newDoc false)) =
          (db, .error .tableNotFound)) ∧
    (lookupTable db.value T = none →
        applyDone db result (some (.Create T newDoc true)) =
          (save { db with value := db.value ++ [(T, [newDoc])] }, .ok result)) ∧
    (∀ docs, lookupTable db.value T = some docs → (∀ d ∈ docs, HasStrId d) →
        ((newDoc ∈ docs ∨ ∃ d ∈ docs, idStrOf d = some s) →
            applyDone db result (some (.Create T newDoc or_)) =
              (db, .error .recordAlreadyExists)) ∧
        ((newDoc ∉ docs ∧ ∀ d ∈ docs, idStrOf d ≠ some s) →
            applyDone db result (some (.Create T newDoc or_)) =
              (save { db with value := setTable db.value T (docs ++ [newDoc]) },
                .ok result))) := by
  refine ⟨?_, ?_, ?_⟩
  · intro habs
    simp [applyDone, insert_absent_no_create hid habs]
  · intro habs
    simp [applyDone, insert_absent_create hid habs]
  · intro docs hdocs hall
    constructor
    · intro hdup
      by_cases hmem : newDoc ∈ docs
      · simp [applyDone, insert_dup_struct hid rfl hdocs hmem]
      · rcases hdup with hmem' | hdup
        · exact absurd hmem' hmem
        · simp [applyDone, insert_dup_id hid rfl hdocs hmem hall hdup]
    · rintro ⟨hmem, hno⟩
      have hall' : ∀ d ∈ docs, ∃ u, idStrOf d = some u ∧ u ≠ s := by
        intro d hd
        obtain ⟨u, hu⟩ := hall d hd
        have hu' : idStrOf d = some u := idStrOf_eq_some.mpr hu
        exact ⟨u, hu', fun he => hno d hd (he ▸ hu')⟩
      simp [applyDone, insert_ok hid rfl hdocs hmem hall']

/-- C2 witness: inserting a document sharing id "1" into the sample store
fails with RecordAlreadyExists and returns the store unchanged. -/
theorem create_run_semantics_witness :
    applyDone wDB [] (some (.Create "users" wNew1 false)) =
      (wDB, .error .recordAlreadyExists) :=
  (((create_run_semantics wDB "users" wNew1 [] "1" false (by decide)).2.2
      [wDoc1, wDoc2] (by decide)
      (fun d hd => by
        rcases List.mem_cons.mp hd with rfl | hd
        · exact ⟨"1", by decide⟩
        · rcases List.mem_cons.mp hd with rfl | hd
          · exact ⟨"2", by decide⟩
          · simp at hd)).1)
    (.inr ⟨wDoc1, by decide, by decide⟩)

/-- C3: For every run whose pending action is Delete(T), modelled at the
`Done` step with the filtered working result `result` (a subset of T's
documents): exactly those documents of T whose `id` equals the `id` of
some document of `result` are removed, and no others; the removed set is
exactly `result` (using T's id-uniqueness invariant); and a run with no
Where/Compare (`delete(T).run()`) empties T and returns all its former
documents. -/
theorem delete_run_semantics (db : DB) (T : String) (result docs : List Val)
    (hT : lookupTable db.value T = some docs)
    (hdocs : ∀ d ∈ docs, HasStrId d)
    (hsub : ∀ d ∈ result, d ∈ docs)
    (hinv : TableInv docs) :
    (applyDone db result (some (.Delete T)) =
        (save { db with value := (setTable db.value T
            (docs.filter (fun t => !((result.map idStrOf).contains (idStrOf t))))) },
          .ok result)) ∧
    (∀ x, (x ∈ docs ∧ (result.map idStrOf).contains (idStrOf x) = true) ↔
        x ∈ result) ∧
    (run db [.Method (.Delete T)] =
        (save { db with value := setTable db.value T [] }, .ok docs)) := by
  have hallr : ∀ r ∈ result, HasStrId r := fun r hr => hdocs r (hsub r hr)
  refine ⟨?_, ?_, ?_⟩
  · simp [applyDone, delete_ok hT hdocs hallr]
  · intro x
    constructor
    · rintro ⟨hxd, hc⟩
      rw [List.contains, List.elem_iff] at hc
      obtain ⟨r, hr, hrx⟩ := List.mem_map.mp hc
      by_cases hxr : x = r
      · exact hxr ▸ hr
      · exfalso
        have hRsymm : Symmetric (fun a b : Val => a ≠ b ∧ getId a ≠ getId b) :=
          fun a b hab => ⟨hab.1.symm, hab.2.symm⟩
        have hR := hinv.forall hRsymm hxd (hsub r hr) hxr
        obtain ⟨u, hu⟩ := hdocs x hxd
        have hux : idStrOf x = some u := idStrOf_eq_some.mpr hu
        have hur : idStrOf r = some u := by rw [hrx, hux]
        exact hR.2 (by rw [getId_of_idStrOf hux, getId_of_idStrOf hur])
    · intro hxr
      refine ⟨hsub x hxr, ?_⟩
      rw [List.contains, List.elem_iff]
      exact List.mem_map.mpr ⟨x, hxr, rfl⟩
  · have hnil : docs.filter
        (fun t => !((docs.map idStrOf).contains (idStrOf t))) = [] := by
      rw [List.filter_eq_nil_iff]
      intro a ha
      have hmem : idStrOf a ∈ docs.map idStrOf := List.mem_map.mpr ⟨a, ha, rfl⟩
      simp [List.contains, List.elem_iff, hmem]
    have hdel := delete_ok hT hdocs hdocs
    rw [hnil] at hdel
    simp [run, runAux, get_table_vec, hT, Except.toOption, MethodName.tableName,
      applyDone, hdel]

/-- C3 witness: an unfiltered delete of the sample `users` table empties
it and returns both former documents. -/
theorem delete_run_semantics_witness :
    run wDB [.Method (.Delete "users")] =
      (save { wDB with value := setTable wDB.value "users" [] },
        .ok [wDoc1, wDoc2]) :=
  (delete_run_semantics wDB "users" [wDoc1, wDoc2] [wDoc1, wDoc2] (by decide)
      (fun d hd => by
        rcases List.mem_cons.mp hd with rfl | hd
        · exact ⟨"1", by decide⟩
        · rcases List.mem_cons.mp hd with rfl | hd
          · exact ⟨"2", by decide⟩
          · simp at hd)
      (fun d hd => hd)
      (by
        refine List.Pairwise.cons ?_ (List.pairwise_singleton _ _)
        intro b hb
        rw [List.mem_singleton] at hb
        subst hb
        exact ⟨by decide, by decide⟩)).2.2

/-- C4: In every reachable store — empty at creation, then closed under
`add_table` and successful `run`s of any queued chain (Create, Read,
Update or Delete) — no table contains two structurally identical
documents, and no table contains two documents whose `id` fields are
equal. -/
theorem reachable_store_invariant (s : Store) (h : Reachable s) : StoreInv s := by
  induction h with
  | empty => intro p hp; simp at hp
  | addTableStep s file t _ ih => exact StoreInv_add_empty ih
  | runStep s file rs db' res _ hrun ih => exact run_preserves_inv ih hrun

/-- C4 witness: the store reached by creating a `users` table and
inserting one document through a run satisfies the invariant. -/
theorem reachable_store_invariant_witness :
    StoreInv (run ⟨[("users", [])], ""⟩
      [.Method (.Create "users" wDoc1 false)]).1.value :=
  reachable_store_invariant _
    (Reachable.runStep [("users", [])] "" [.Method (.Create "users" wDoc1 false)]
      (run ⟨[("users", [])], ""⟩ [.Method (.Create "users" wDoc1 false)]).1 []
      (Reachable.addTableStep [] "" "users" Reachable.empty)
      (by decide))

/-- C8: For every run that returns successfully (including a pure Read
with no mutation), the file content after the run is the serialization of
the in-memory store at that moment: the `Done` arm always saves before
returning. -/
theorem run_success_persists_store (db : DB) (runners : List Runner) (db' : DB)
    (res : List Val) (h : run db runners = (db', .ok res)) :
    db'.file = serialize_store db'.value :=
  runAux_done_file (by simp) h

/-- C8 witness: after a pure Read run on the sample store, the file holds
the serialized store. -/
theorem run_success_persists_store_witness :
    (run wDB [.Method (.Read "users")]).1.file =
      serialize_store (run wDB [.Method (.Read "users")]).1.value :=
  run_success_persists_store wDB [.Method (.Read "users")]
    (run wDB [.Method (.Read "users")]).1 [wDoc1, wDoc2] (by decide)

/-- C10: The mutation paths are total only under the precondition that
the supplied document and every document they examine carries a
top-level string `id`: a Create whose document's `id` does not resolve
panics before any table logic (even though Create enforces no other
schema); an Update whose document lacks a string `id` panics; an Update
that matches no candidate and examines a candidate without a string `id`
panics; a Delete with a nonempty working result over a table containing
a document without a string `id` panics.  Each panic aborts the run with
the database unchanged. -/
theorem id_string_precondition (db : DB) (T : String) (newDoc : Val)
    (result docs : List Val) (or_ : Bool) (r : Val) (rs : List Val) :
    ((∃ e, get_nested_value newDoc "id" = .error e) →
        applyDone db result (some (.Create T newDoc or_)) =
          (db, .error .panicked)) ∧
    (idStrOf newDoc = none →
        applyDone db result (some (.Update T newDoc)) =
          (db, .error .panicked)) ∧
    (∀ s, idStrOf newDoc = some s → (∀ d ∈ result, idStrOf d ≠ some s) →
        (∃ d ∈ result, idStrOf d = none) →
        applyDone db result (some (.Update T newDoc)) =
          (db, .error .panicked)) ∧
    (lookupTable db.value T = some docs → (∃ t ∈ docs, idStrOf t = none) →
        applyDone db (r :: rs) (some (.Delete T)) =
          (db, .error .panicked)) := by
  refine ⟨?_, ?_, ?_, ?_⟩
  · rintro ⟨e, he⟩
    simp [applyDone, insert_id_panic he]
  · intro hnone
    simp [applyDone, update_id_panic hnone]
  · intro s hs hno hbad
    have hid := idStrOf_eq_some.mp hs
    have hf := find_update_target_panic hno hbad
    simp [applyDone, update_table, hid, unwrapE, unwrapOpt, Val.asStr, bind,
      Except.bind, hf]
  · intro hdocs hbad
    simp [applyDone, delete_docs_panic hdocs hbad]

/-- C10 witness: deleting from a table holding a document whose `id` is a
number panics and aborts with the database unchanged. -/
theorem id_string_precondition_witness :
    applyDone ⟨[("t", [wBad])], ""⟩ [wBad] (some (.Delete "t")) =
      (⟨[("t", [wBad])], ""⟩, .error .panicked) :=
  (id_string_precondition ⟨[("t", [wBad])], ""⟩ "t" wBad [wBad] [wBad] false
      wBad []).2.2.2 (by decide) ⟨wBad, by decide, by decide⟩
